import Mathlib

/-
Verification of the DTransformer data-loading core (`DTransformer/data.py`)
against its natural-language specification.

The Python source is shallowly embedded: the record file reader `Lines`,
the record parser `Transform`, the batch assembler (`_transform_batch` /
`Batch`), and the prefetching `Iterator` become pure Lean functions over
explicit state.  Machine-level details that the claims depend on are kept:
`linecache.getline` returns `""` for out-of-file line numbers, Python `//`
is floor division (`Int.fdiv`), slices clamp rather than raise, and
exceptions become an explicit error type carried in `Except`.
-/

namespace DTransData

deriving instance DecidableEq for Except

/-- Failure taxonomy of the module.  `fileAccess`, `indexOutOfRange`
(`IndexError`), `parseError` (`ValueError` from `int()`), `lengthMismatch`
(the constructor assertion) are the spec's names; `typeError` models the
Python `TypeError` raised when the no-batch production path falls through
into a batch branch and evaluates `i * None`. -/
inductive DErr : Type
  | fileAccess
  | indexOutOfRange
  | parseError
  | lengthMismatch
  | typeError
  deriving DecidableEq, Repr

/-- Value returned by `Lines.__getitem__` for an integer index: a bare
string when `group == 1`, a list of strings otherwise. -/
inductive LineVal : Type
  | one (s : String)
  | many (ls : List String)
  deriving DecidableEq, Repr

/-- Python `str.strip(chars)`: remove the characters of `cs` from both
ends of the string. -/
def pyStripChars (cs : List Char) (s : String) : String :=
  ⟨((s.toList.dropWhile (fun c => cs.contains c)).reverse.dropWhile
      (fun c => cs.contains c)).reverse⟩

/-- `line.strip("\r\n")` as used by `Lines.__getitem__`. -/
def stripNL (s : String) : String :=
  pyStripChars ['\r', '\n'] s

/-- Python `str.strip()` (ASCII whitespace). -/
def pyStripWS (s : String) : String :=
  pyStripChars [' ', '\t', '\n', '\r', '\x0b', '\x0c'] s

/-- `linecache.getline(filename, n)`: the `n`-th physical line of the file
(1-based, terminator included), and `""` whenever `n` is outside
`[1, linecount]` (including `n ≤ 0`). -/
def getline (fl : List String) (n : Int) : String :=
  if 1 ≤ n ∧ n ≤ fl.length then fl.getD (n - 1).toNat "" else ""

/-- The `Lines` reader: `fileLines` are the physical lines of the file as
stored (terminators included), with the constructor parameters `skip`,
`group` and `preserve_newline`. -/
structure Lines : Type where
  fileLines : List String
  skip : Nat
  group : Nat
  preserveNewline : Bool
  deriving DecidableEq, Repr

/-- `Lines.__len__`: `(linecount - skip) // group`, Python floor division. -/
def Lines.length (L : Lines) : Int :=
  ((L.fileLines.length : Int) - (L.skip : Int)).fdiv (L.group : Int)

/-- The line list built by the `group != 1` fetch: the `group` physical
lines `d + i*group + k` (`d = skip + 1`, `k < group`), each stripped of
`"\r\n"` unless `preserve_newline`. -/
def recordLines (L : Lines) (i : Int) : List String :=
  let d : Int := (L.skip : Int) + 1
  let lines := (List.range L.group).map
    (fun k : Nat => getline L.fileLines (d + i * (L.group : Int) + (k : Int)))
  if L.preserveNewline then lines else lines.map stripNL

/-- Body shared verbatim by the integer branch and the slice loop of
`Lines.__getitem__`: fetch record `i` through the line cache. -/
def fetchAt (L : Lines) (i : Int) : LineVal :=
  if L.group = 1 then
    let line := getline L.fileLines (i + ((L.skip : Int) + 1))
    .one (if L.preserveNewline then line else stripNL line)
  else
    .many (recordLines L i)

/-- `Lines.__getitem__` on an `int` index: the source only checks
`item < len(self)` before fetching, and raises `IndexError` otherwise. -/
def linesGetInt (L : Lines) (item : Int) : Except DErr LineVal :=
  if item < L.length then .ok (fetchAt L item) else .error .indexOutOfRange

/-- `_clip(v, low, high)` from the source: two sequential comparisons. -/
def _clip (v low high : Int) : Int :=
  let v1 := if v < low then low else v
  if v1 > high then high else v1

/-- The integers `[a, a+1, ..., b-1]` (`range(a, b)` over `Int`). -/
def intRange (a b : Int) : List Int :=
  (List.range (b - a).toNat).map (fun k : Nat => a + (k : Int))

/-- Lower-bound normalization of the source's slice branch:
`low = _clip(low, -len(self), len(self) - 1)`, then `low += len(self)` if
negative. -/
def lowNormCode (n s : Int) : Int :=
  let low1 := _clip s (-n) (n - 1)
  if low1 < 0 then low1 + n else low1

/-- Upper-bound normalization of the source's slice branch:
`high = _clip(high, -len(self), len(self))`, then `high += len(self)` if
negative. -/
def highNormCode (n s : Int) : Int :=
  let high1 := _clip s (-n) n
  if high1 < 0 then high1 + n else high1

/-- `Lines.__getitem__` on a slice: `None` ends default to `0` / `len`,
the bounds are normalized as in the source, and the same fetch body runs
over `range(low, high)`. -/
def linesSlice (L : Lines) (start stop : Option Int) : List LineVal :=
  (intRange (lowNormCode L.length (start.getD 0))
    (highNormCode L.length (stop.getD L.length))).map (fetchAt L)

/-- Standard array-slice normalization of one bound: negative offsets
count from the end, and the result is clamped into `[0, n]`. -/
def normArray (n v : Int) : Int :=
  if v < 0 then max (v + n) 0 else min v n

/-- Modelled from the spec's words for comparison (refinement side of C2):
`slice(lo, hi)` equals `[get(i) for i in normalizedRange(lo, hi)]` under
array-slice normalization; every such `i` lies in `[0, count)`, where
`get` returns the fetched value. -/
def sliceArraySemantics (L : Lines) (start stop : Option Int) : List LineVal :=
  (intRange (normArray L.length (start.getD 0))
    (normArray L.length (stop.getD L.length))).map (fetchAt L)

/-! ### Record parsing (`Transform.__getitem__`, integer index) -/

/-- Number of digits-only characters interpreted as a base-10 numeral. -/
def digitsToNat (l : List Char) : Nat :=
  l.foldl (fun acc c => acc * 10 + (c.toNat - '0'.toNat)) 0

/-- Python `int(str)`: surrounding whitespace is ignored, an optional
single sign precedes a nonempty digit run.  (Underscore digit grouping is
not modelled.)  `none` models the `ValueError`. -/
def pyInt (s : String) : Option Int :=
  let t := (pyStripWS s).toList
  let p := match t with
    | '-' :: rest => ((-1 : Int), rest)
    | '+' :: rest => ((1 : Int), rest)
    | l => ((1 : Int), l)
  if !p.2.isEmpty && p.2.all Char.isDigit then some (p.1 * digitsToNat p.2)
  else none

/-- Left-to-right effectful map over `Except`, mirroring how a Python list
comprehension evaluates: the first raising element aborts the whole
comprehension. -/
def exMapM (f : α → Except DErr β) : List α → Except DErr (List β)
  | [] => .ok []
  | x :: xs =>
    match f x with
    | .error e => .error e
    | .ok y =>
      match exMapM f xs with
      | .error e => .error e
      | .ok ys => .ok (y :: ys)

/-- `int(x)` on one token: `ValueError` becomes `parseError`. -/
def parseTok (t : String) : Except DErr Int :=
  match pyInt t with
  | some n => .ok n
  | none => .error .parseError

/-- `[int(x) for x in line.strip().split(",")]`. -/
def parseLine (l : String) : Except DErr (List Int) :=
  exMapM parseTok ((pyStripWS l).splitOn ",")

/-- `Transform.__getitem__` with an `int` index: fetch the record from
`Lines`, `del batch[0]` (the count marker), parse each remaining line.
When the fetched value is a bare string (`group == 1` sources),
`del batch[0]` raises `TypeError`. -/
def parseOne (L : Lines) (i : Int) : Except DErr (List (List Int)) :=
  match linesGetInt L i with
  | .error e => .error e
  | .ok (.one _) => .error .typeError
  | .ok (.many lines) => exMapM parseLine (lines.drop 1)

/-! ### Batch assembly (`_transform_batch`, `Batch`) -/

/-- Length of the iterator produced by `zip(*xss)`: the minimum of the
row lengths (`0` for no rows). -/
def zipLen : List (List α) → Nat
  | [] => 0
  | [xs] => xs.length
  | xs :: rest => min xs.length (zipLen rest)

/-- `list(zip(*batch))` on a list of per-record field-sequence lists:
entry `j` of the result collects entry `j` of every record. -/
def pyTranspose (xss : List (List (List Int))) : List (List (List Int)) :=
  (List.range (zipLen xss)).map (fun j => xss.map (fun xs => xs.getD j []))

/-- Maximum of a list of naturals (`0` for the empty list). -/
def listMax : List Nat → Nat
  | [] => 0
  | x :: xs => max x (listMax xs)

/-- `torch.nn.utils.rnn.pad_sequence(·, batch_first=True, padding_value=-1)`
on a list of integer sequences: right-pad every sequence with `-1` to the
maximum length. -/
def padSequence (seqs : List (List Int)) : List (List Int) :=
  let w := listMax (seqs.map List.length)
  seqs.map (fun s => s ++ List.replicate (w - s.length) (-1))

/-- `_transform_batch` without the `Batch` wrapper: transpose the batch to
per-field sequence lists and pad each field independently. -/
def transformBatch (batch : List (List (List Int))) : List (List (List Int)) :=
  (pyTranspose batch).map padSequence

/-- The `Batch` object: per-field padded matrices, the declared field
names (`stoi` maps a name to its position), and the window width. -/
structure BatchS : Type where
  data : List (List (List Int))
  fields : List String
  seqLen : Nat
  deriving DecidableEq, Repr

/-- `tensor.size(1)`: the column count of a matrix. -/
def matWidth (m : List (List Int)) : Nat :=
  (m.headD []).length

/-- `tensor[:, a:b]`: slice the given column range out of every row
(clamped, as in Python). -/
def sliceCols (m : List (List Int)) (a b : Nat) : List (List Int) :=
  m.map (fun row => (row.drop a).take (b - a))

/-- `self.data[self.stoi[f]]` (field names assumed distinct, as in the
repository's usage, so `indexOf` models the dict lookup). -/
def fieldMat (B : BatchS) (f : String) : List (List Int) :=
  B.data.getD (B.fields.indexOf f) []

/-- `Batch.get(*fields)`: `L = self.data[0].size(1)` — note the window
count is computed from field `0`'s width for every requested field — and
each window `i` is the column slice `[i*seq_len, (i+1)*seq_len)`. -/
def BatchS.get (B : BatchS) (names : List String) : List (List (List (List Int))) :=
  let L := matWidth (B.data.headD [])
  names.map (fun f =>
    (List.range (L / B.seqLen)).map (fun i =>
      sliceCols (fieldMat B f) (i * B.seqLen) ((i + 1) * B.seqLen)))

/-! ### The prefetching iterator (`Iterator.__next__` / `Iterator.produce`)

Queue items are tagged values: a produced value or a captured exception.
`Iterator.produce` with `daemon=True` is modelled as the full list of
items it pushes on the queue before returning; `daemon=False` (the
non-prefetch single step) is modelled as the pair (outcome, items pushed
during the call), an uncaught exception being the `Except.error` outcome.
-/

/-- The `for i in range(pos, length)` loop of the no-batch branch of
`produce` in daemon mode, with fuel `length - pos`: each successful fetch
pushes `ok`, the first raising fetch pushes the exception itself and
returns (flag `true`). -/
def loopNBAux (data : Nat → Except DErr α) : Nat → Nat → List (Except DErr α) × Bool
  | 0, _ => ([], false)
  | fuel + 1, pos =>
    match data pos with
    | .error e => ([.error e], true)
    | .ok v =>
      let r := loopNBAux data fuel (pos + 1)
      (.ok v :: r.1, r.2)

/-- `Iterator.produce(daemon=True)` with `batch_size=None`: the no-batch
loop runs to completion; if it finished without an exception and items
remain (`pos < len`), control falls through into the batch branches where
the first iteration evaluates `i * None` and raises `TypeError`, which
daemon mode pushes on the queue.  Neither the batch-order permutation
`index` nor the element permutation `fullIndex` contributes to any pushed
value (they are read only on the fall-through path, whose `TypeError` is
raised before their values can matter), so both are unused below. -/
def produceNB (data : Nat → Except DErr α) (index : List Nat)
    (fullIndex : Option (List Nat)) (pos len : Nat) : List (Except DErr α) :=
  (loopNBAux data (len - pos) pos).1 ++
    (if (loopNBAux data (len - pos) pos).2 then []
     else if pos < len then [.error .typeError] else [])

/-- The consumer loop: repeated `__next__` calls in prefetch mode against
a queue stream.  Stops with `StopIteration` once `pos` reaches `len`
(the length of `self.index`); a dequeued exception is re-raised (second
component) and `pos` is not advanced. -/
def consume (q : List (Except DErr α)) (pos len : Nat) : List α × Option DErr :=
  if len ≤ pos then ([], none)
  else
    match q with
    | [] => ([], none)
    | .error e :: _ => ([], some e)
    | .ok v :: rest =>
      let r := consume rest (pos + 1) len
      (v :: r.1, r.2)

/-- One `__next__` call in non-prefetch mode with `batch_size=None`:
`produce(False)` performs one production step synchronously.  The result
is the outcome (`ok none` = `StopIteration`, `error e` = the exception
propagating to the caller) paired with the items pushed on the queue
during the call.  A fetch failure is re-raised by `produce` (its
`daemon=False` branch) without touching the queue. -/
def nextNP (data : Nat → Except DErr α) (pos len : Nat) :
    Except DErr (Option α) × List (Except DErr α) :=
  if pos < len then
    match data pos with
    | .error e => (.error e, [])
    | .ok v => (.ok (some v), [.ok v])
  else (.ok none, [])

/-! ### The batch production paths of `Iterator.produce` -/

/-- A queue item on the batch paths: `put(data_batch)` when there are no
labels, `put([data_batch] + label_batch)` otherwise. -/
inductive QItemB (α : Type) : Type
  | bare (b : α)
  | composed (l : List α)
  deriving DecidableEq, Repr

/-- `self.transform(x) if self.transform is not None else x`. -/
def applyT (transform : Option (α → α)) (x : α) : α :=
  match transform with
  | none => x
  | some t => t x

/-- Apply a transform to the data batch and every label batch of an item. -/
def mapQItem (t : List α → List α) : QItemB (List α) → QItemB (List α)
  | .bare b => .bare (t b)
  | .composed l => .composed (l.map t)

/-- The `full_index` branch of `produce` in daemon mode (error-free run):
for `i in range(pos, len(self))`, slice `inds = full_index[i*bs:(i+1)*bs]`
(ordinary Python list slicing), fetch each element, apply the transform if
present — to the data batch and to each label batch — and push the item. -/
def produceFullL (elems : Nat → α) (labels : List (Nat → α))
    (transform : Option (List α → List α)) (fullIndex : List Nat)
    (bs pos nb : Nat) : List (QItemB (List α)) :=
  (List.range' pos (nb - pos)).map (fun i =>
    let inds := (fullIndex.drop (i * bs)).take bs
    let db := applyT transform (inds.map elems)
    let lbs := labels.map (fun lab => applyT transform (inds.map lab))
    if lbs.isEmpty then .bare db else .composed (db :: lbs))

/-- The `full_index` branch specialised to a label-free iterator (the
`queue.put(data_batch)` case), used for the full-shuffle coverage claim. -/
def produceFull (elems : Nat → α) (transform : Option (List α → List α))
    (fullIndex : List Nat) (bs pos nb : Nat) : List (List α) :=
  (List.range' pos (nb - pos)).map (fun i =>
    applyT transform (((fullIndex.drop (i * bs)).take bs).map elems))

/-- The `else` branch of `produce` (ordering mode none / batch-shuffle) in
daemon mode (error-free run): `index = self.index[i]`, the data and label
sources are fetched with the range `[index*bs, (index+1)*bs)` — and
`self.transform` is never consulted on this path, which is why the
`transform` parameter is unused. -/
def produceBatchElse (dataRange : Nat → Nat → List α)
    (labelRanges : List (Nat → Nat → List α))
    (transform : Option (List α → List α)) (index : List Nat)
    (bs pos nb : Nat) : List (QItemB (List α)) :=
  (List.range' pos (nb - pos)).map (fun i =>
    let idx := index.getD i 0
    let db := dataRange (idx * bs) ((idx + 1) * bs)
    let lbs := labelRanges.map (fun lab => lab (idx * bs) ((idx + 1) * bs))
    if lbs.isEmpty then .bare db else .composed (db :: lbs))

/-- `math.ceil(length / batch_size)` for natural inputs. -/
def ceilDiv (n bs : Nat) : Nat :=
  (n + bs - 1) / bs

/-! ### Concrete instances used by witnesses and counterexamples -/

/-- A one-record file (`skip=0`, `group=1`). -/
def exL2 : Lines := ⟨["a\n"], 0, 1, false⟩

/-- A two-record file (`skip=0`, `group=1`). -/
def exW2 : Lines := ⟨["a\n", "b\n"], 0, 1, false⟩

/-- A one-record file used for the negative-index behaviour. -/
def exL3 : Lines := ⟨["x\n"], 0, 1, false⟩

/-- A one-record grouped file: marker line `"2"`, field line `"1,2"`. -/
def exL3b : Lines := ⟨["2\n", "1,2\n"], 0, 2, false⟩

/-- A two-record grouped file with one field line per record. -/
def exL7 : Lines := ⟨["2\n", "1,2\n", "3\n", "4,5,6\n"], 0, 2, false⟩

/-- A data source whose every fetch raises `ParseError`. -/
def cdataC1 : Nat → Except DErr Nat := fun _ => .error .parseError

/-- A data source that raises `ParseError` at index `1` only. -/
def wdataC1 : Nat → Except DErr Nat := fun i =>
  if i = 1 then .error .parseError else .ok i

/-- A range-fetch source returning the requested index interval itself. -/
def rngData : Nat → Nat → List Nat := fun a b => List.range' a (b - a)

/-- A `Batch` whose two fields have different padded widths (`1` and `2`). -/
def exB6 : BatchS := ⟨[[[1]], [[1, 2]]], ["a", "b"], 1⟩

/-- A well-formed `Batch`: two fields, one row each, common width `2`. -/
def exW6 : BatchS := ⟨[[[1, 2]], [[3, 4]]], ["a", "b"], 1⟩

/-! ## Helper lemmas -/

theorem getD_map_of_lt {α β : Type} (g : α → β) (l : List α) (n : Nat) (d : β) (d' : α)
    (h : n < l.length) : (l.map g).getD n d = g (l.getD n d') := by
  rw [List.getD_eq_getElem _ _ (by simpa using h), List.getD_eq_getElem _ _ h,
    List.getElem_map]

theorem lowNormCode_eq_normArray (n s : Int) (hn : 0 < n) (hs : s < n) :
    lowNormCode n s = normArray n s := by
  simp only [lowNormCode, _clip, normArray]
  split_ifs <;> omega

theorem highNormCode_eq_normArray (n s : Int) (hn : 0 < n) :
    highNormCode n s = normArray n s := by
  simp only [highNormCode, _clip, normArray]
  split_ifs <;> omega

theorem getline_ofNat (fl : List String) (m : Nat) (hm : m < fl.length) :
    getline fl ((m : Int) + 1) = fl.getD m "" := by
  unfold getline
  rw [if_pos ⟨by omega, by omega⟩]
  have h : ((m : Int) + 1 - 1).toNat = m := by omega
  rw [h]

theorem map_getline (fl : List String) (g : Nat) :
    ∀ a : Nat, a + g ≤ fl.length →
      (List.range g).map (fun k : Nat => getline fl ((a : Int) + 1 + (k : Int))) =
        (fl.drop a).take g := by
  induction g with
  | zero => intro a _; simp
  | succ g ih =>
    intro a h
    have ha : a < fl.length := by omega
    rw [List.range_succ_eq_map, List.map_cons, List.map_map,
      List.drop_eq_getElem_cons ha, List.take_succ_cons]
    congr 1
    · have h0 : (a : Int) + 1 + ((0 : Nat) : Int) = (a : Int) + 1 := by push_cast; ring
      rw [h0, getline_ofNat fl a ha, List.getD_eq_getElem _ _ ha]
    · have h2 : ((fun k : Nat => getline fl ((a : Int) + 1 + (k : Int))) ∘ Nat.succ) =
          (fun k : Nat => getline fl (((a + 1 : Nat) : Int) + 1 + (k : Int))) := by
        funext k
        simp only [Function.comp]
        congr 1
        push_cast
        ring
      rw [h2, ih (a + 1) (by omega)]

theorem index_bound (L : Lines) (i : Int) (h0 : 0 ≤ i) (h1 : i < L.length)
    (hg : 0 < L.group) (hsk : L.skip ≤ L.fileLines.length) :
    L.skip + (i.toNat + 1) * L.group ≤ L.fileLines.length := by
  unfold Lines.length at h1
  rw [Int.fdiv_eq_ediv _ (by exact_mod_cast Nat.zero_le _)] at h1
  have h2 : i + 1 ≤ ((L.fileLines.length : Int) - (L.skip : Int)) / (L.group : Int) := by
    omega
  rw [Int.le_ediv_iff_mul_le (by exact_mod_cast hg)] at h2
  have h3 : ((L.skip + (i.toNat + 1) * L.group : Nat) : Int) ≤
      ((L.fileLines.length : Nat) : Int) := by
    push_cast
    have h4 : ((i.toNat : Int) + 1) * (L.group : Int) ≤
        (L.fileLines.length : Int) - (L.skip : Int) := by
      rw [Int.toNat_of_nonneg h0]; exact h2
    linarith
  exact_mod_cast h3

theorem recordLines_eq (L : Lines) (i : Int) (h0 : 0 ≤ i)
    (hb : L.skip + (i.toNat + 1) * L.group ≤ L.fileLines.length) :
    recordLines L i =
      ((L.fileLines.drop (L.skip + i.toNat * L.group)).take L.group).map
        (fun s => if L.preserveNewline then s else stripNL s) := by
  simp only [recordLines]
  have hfun : (fun k : Nat =>
        getline L.fileLines (((L.skip : Int) + 1) + i * (L.group : Int) + (k : Int))) =
      (fun k : Nat =>
        getline L.fileLines (((L.skip + i.toNat * L.group : Nat) : Int) + 1 + (k : Int))) := by
    funext k
    congr 1
    push_cast [Int.toNat_of_nonneg h0]
    ring
  have hlen : (L.skip + i.toNat * L.group) + L.group ≤ L.fileLines.length := by
    have : (i.toNat + 1) * L.group = i.toNat * L.group + L.group := by ring
    omega
  rw [hfun, map_getline _ _ _ hlen]
  cases hp : L.preserveNewline with
  | true => simp
  | false => simp

theorem linesGetInt_error_iff (L : Lines) (j : Int) :
    linesGetInt L j = .error .indexOutOfRange ↔ L.length ≤ j := by
  unfold linesGetInt
  split_ifs with h
  · constructor
    · intro hc
      exact absurd hc (by simp)
    · intro hc
      exact absurd h (not_lt.mpr hc)
  · exact ⟨fun _ => not_lt.mp h, fun _ => rfl⟩

/-! ## Claim C2 -/

/-- C2, counterexample: with `count = 1`, `slice(1, None)` returns the
last record, while array-slice semantics (as the claim states) demands
the empty list — the source clamps the lower bound into `[-len, len-1]`
instead of `[-len, len]`. -/
theorem c2_counterexample :
    linesSlice exL2 (some 1) none = [LineVal.one "a"] ∧
    sliceArraySemantics exL2 (some 1) none = [] := by
  constructor <;> rfl

/-- C2 (amended): `slice(lo, hi)` equals `[get(i) for i in the normalized
range]` under array-slice semantics whenever the reader is nonempty and
the requested lower bound is below `count`; for `lo ≥ count` the source
clamps the lower bound to `count - 1` (wrongly yielding the last record),
and for `count = 0` every slice yields one junk fetch at index `-1`. -/
theorem c2_slice_agreement (L : Lines) (start stop : Option Int)
    (hn : 0 < L.length) (hs : ∀ s : Int, start = some s → s < L.length) :
    linesSlice L start stop = sliceArraySemantics L start stop := by
  unfold linesSlice sliceArraySemantics
  have h1 : lowNormCode L.length (start.getD 0) = normArray L.length (start.getD 0) := by
    refine lowNormCode_eq_normArray _ _ hn ?_
    cases start with
    | none => simpa using hn
    | some s => simpa using hs s rfl
  have h2 : highNormCode L.length (stop.getD L.length) =
      normArray L.length (stop.getD L.length) :=
    highNormCode_eq_normArray _ _ hn
  rw [h1, h2]

/-- C2, witness: the agreement theorem applied to a two-record reader and
the slice `[-1:]`. -/
theorem c2_witness :
    ((0 : Int) < exW2.length ∧
      (∀ s : Int, (some (-1) : Option Int) = some s → s < exW2.length)) ∧
    linesSlice exW2 (some (-1)) none = sliceArraySemantics exW2 (some (-1)) none :=
  ⟨⟨by decide, by intro s hs; injection hs with hs; subst hs; decide⟩,
    c2_slice_agreement exW2 (some (-1)) none (by decide)
      (by intro s hs; injection hs with hs; subst hs; decide)⟩

/-! ## Claim C3 -/

/-- C3, counterexample: `get(-5)` on a one-record reader does not raise
`IndexOutOfRange` — the source only checks `item < len(self)`, so every
negative index is accepted and fetched through the line cache (which
returns `""` for non-positive physical line numbers). -/
theorem c3_counterexample :
    linesGetInt exL3 (-5) = .ok (LineVal.one "") ∧
    linesGetInt exL3 (-5) ≠ .error .indexOutOfRange := by
  decide

/-- C3 (amended): `get(i)` fails with `IndexOutOfRange` exactly when
`i ≥ count` (negative `i` is erroneously accepted and yields line-cache
fetches instead of an error), and for `0 ≤ i < count` it returns the
`group` physical lines of record `i` starting at physical line
`skip + i*group + 1`, terminator-stripped unless `preserveTerminators`
(a bare line when `group = 1`). -/
theorem c3_get_contract (L : Lines) (i : Int) (h0 : 0 ≤ i) (h1 : i < L.length)
    (hg : 0 < L.group) (hsk : L.skip ≤ L.fileLines.length) :
    (∀ j : Int, linesGetInt L j = .error .indexOutOfRange ↔ L.length ≤ j) ∧
    (L.group ≠ 1 →
      linesGetInt L i = .ok (.many
        (((L.fileLines.drop (L.skip + i.toNat * L.group)).take L.group).map
          (fun s => if L.preserveNewline then s else stripNL s)))) ∧
    (L.group = 1 →
      linesGetInt L i = .ok (.one
        (if L.preserveNewline then L.fileLines.getD (L.skip + i.toNat) ""
         else stripNL (L.fileLines.getD (L.skip + i.toNat) "")))) := by
  have hb := index_bound L i h0 h1 hg hsk
  refine ⟨linesGetInt_error_iff L, ?_, ?_⟩
  · intro hg1
    unfold linesGetInt fetchAt
    rw [if_pos h1, if_neg hg1, recordLines_eq L i h0 hb]
  · intro hg1
    unfold linesGetInt fetchAt
    rw [if_pos h1, if_pos hg1]
    have hm : L.skip + i.toNat < L.fileLines.length := by
      rw [hg1, mul_one] at hb
      omega
    have harg : i + ((L.skip : Int) + 1) = ((L.skip + i.toNat : Nat) : Int) + 1 := by
      push_cast [Int.toNat_of_nonneg h0]
      ring
    rw [harg, getline_ofNat _ _ hm]

/-- C3, witness: the contract applied to a grouped two-line file at the
valid index `0`. -/
theorem c3_witness :
    ((0 : Int) ≤ 0 ∧ (0 : Int) < exL3b.length ∧ 0 < exL3b.group ∧
      exL3b.skip ≤ exL3b.fileLines.length) ∧
    ((∀ j : Int, linesGetInt exL3b j = .error .indexOutOfRange ↔ exL3b.length ≤ j) ∧
     (exL3b.group ≠ 1 →
       linesGetInt exL3b 0 = .ok (.many
         (((exL3b.fileLines.drop (exL3b.skip + (0 : Int).toNat * exL3b.group)).take
             exL3b.group).map
           (fun s => if exL3b.preserveNewline then s else stripNL s)))) ∧
     (exL3b.group = 1 →
       linesGetInt exL3b 0 = .ok (.one
         (if exL3b.preserveNewline then exL3b.fileLines.getD (exL3b.skip + (0 : Int).toNat) ""
          else stripNL (exL3b.fileLines.getD (exL3b.skip + (0 : Int).toNat) ""))))) :=
  ⟨⟨le_refl 0, by decide, by decide, by decide⟩,
    c3_get_contract exL3b 0 (le_refl 0) (by decide) (by decide) (by decide)⟩

/-! ## Padding lemmas (`_transform_batch`) -/

theorem listMax_ge {l : List Nat} {x : Nat} (h : x ∈ l) : x ≤ listMax l := by
  induction l with
  | nil => cases h
  | cons y ys ih =>
    cases h with
    | head => exact le_max_left _ _
    | tail _ hmem => exact le_trans (ih hmem) (le_max_right _ _)

theorem getD_mem {α : Type} {l : List α} {n : Nat} {d : α} (h : n < l.length) :
    l.getD n d ∈ l := by
  rw [List.getD_eq_getElem _ _ h]
  exact List.getElem_mem h

theorem padSequence_length (seqs : List (List Int)) :
    (padSequence seqs).length = seqs.length := by
  simp [padSequence]

theorem padSequence_getD (seqs : List (List Int)) (r : Nat) (hr : r < seqs.length) :
    (padSequence seqs).getD r [] =
      seqs.getD r [] ++
        List.replicate (listMax (seqs.map List.length) - (seqs.getD r []).length) (-1) := by
  simp only [padSequence]
  exact getD_map_of_lt _ _ _ _ _ hr

theorem padSequence_row_length (seqs : List (List Int)) (r : Nat) (hr : r < seqs.length) :
    ((padSequence seqs).getD r []).length = listMax (seqs.map List.length) := by
  rw [padSequence_getD _ _ hr]
  have hle : (seqs.getD r []).length ≤ listMax (seqs.map List.length) :=
    listMax_ge (List.mem_map_of_mem _ (getD_mem hr))
  simp only [List.length_append, List.length_replicate]
  omega

theorem padSequence_mem_length (seqs : List (List Int)) :
    ∀ row ∈ padSequence seqs, row.length = listMax (seqs.map List.length) := by
  intro row hrow
  simp only [padSequence] at hrow
  rcases List.mem_map.mp hrow with ⟨s, hs, rfl⟩
  have hle : s.length ≤ listMax (seqs.map List.length) :=
    listMax_ge (List.mem_map_of_mem _ hs)
  simp only [List.length_append, List.length_replicate]
  omega

theorem padSequence_cell (seqs : List (List Int)) (r c : Nat) (hr : r < seqs.length)
    (hc : c < listMax (seqs.map List.length)) :
    ((padSequence seqs).getD r []).getD c 0 =
      if c < (seqs.getD r []).length then (seqs.getD r []).getD c 0 else -1 := by
  rw [padSequence_getD _ _ hr]
  have hle : (seqs.getD r []).length ≤ listMax (seqs.map List.length) :=
    listMax_ge (List.mem_map_of_mem _ (getD_mem hr))
  by_cases h : c < (seqs.getD r []).length
  · rw [if_pos h]
    rw [List.getD_eq_getElem _ _ (by simp only [List.length_append]; omega),
      List.getElem_append_left h, List.getD_eq_getElem _ _ h]
  · rw [if_neg h]
    have hlen : c < (seqs.getD r [] ++
        List.replicate (listMax (seqs.map List.length) - (seqs.getD r []).length)
          (-1 : Int)).length := by
      simp only [List.length_append, List.length_replicate]
      omega
    rw [List.getD_eq_getElem _ _ hlen, List.getElem_append_right (by omega),
      List.getElem_replicate]

theorem pyTranspose_getD (batch : List (List (List Int))) (f : Nat)
    (hf : f < zipLen batch) :
    (pyTranspose batch).getD f [] = batch.map (fun q => q.getD f []) := by
  simp only [pyTranspose]
  have h1 : (List.range (zipLen batch)).getD f 0 = f := by
    rw [List.getD_eq_getElem _ _ (by simpa using hf), List.getElem_range]
  rw [getD_map_of_lt _ _ _ _ 0 (by simpa using hf), h1]

theorem transformBatch_getD (batch : List (List (List Int))) (f : Nat)
    (hf : f < zipLen batch) :
    (transformBatch batch).getD f [] =
      padSequence (batch.map (fun q => q.getD f [])) := by
  simp only [transformBatch]
  have hlt : f < (pyTranspose batch).length := by
    simp only [pyTranspose, List.length_map, List.length_range]
    exact hf
  rw [getD_map_of_lt _ _ _ _ [] hlt, pyTranspose_getD _ _ hf]

theorem map_length_comp (batch : List (List (List Int))) (f : Nat) :
    (batch.map (fun q => q.getD f [])).map List.length =
      batch.map (fun q => (q.getD f []).length) := by
  rw [List.map_map]
  rfl

/-! ## Claim C5 -/

/-- C5 (confirmed): for any batch and any field position `f` present in
every record (`f < zipLen`), the padded matrix for that field has one row
per record, all rows of width `max(l1..ln)` (the maxima of that field's
sequence lengths), and cell `[r][c]` is the original value when
`c < l_r`, else the sentinel `-1`. -/
theorem c5_padding_law (batch : List (List (List Int))) (f : Nat)
    (hf : f < zipLen batch) :
    ((transformBatch batch).getD f []).length = batch.length ∧
    (∀ r, r < batch.length →
      (((transformBatch batch).getD f []).getD r []).length =
        listMax (batch.map (fun q => (q.getD f []).length))) ∧
    (∀ r, r < batch.length →
      ∀ c, c < listMax (batch.map (fun q => (q.getD f []).length)) →
        ((((transformBatch batch).getD f []).getD r []).getD c 0) =
          if c < ((batch.getD r []).getD f []).length
          then ((batch.getD r []).getD f []).getD c 0
          else -1) := by
  have ht := transformBatch_getD batch f hf
  have hmm := map_length_comp batch f
  refine ⟨?_, ?_, ?_⟩
  · rw [ht, padSequence_length, List.length_map]
  · intro r hr
    rw [ht, padSequence_row_length _ _ (by simpa using hr), hmm]
  · intro r hr c hc
    rw [ht, padSequence_cell _ _ _ (by simpa using hr) (by rw [hmm]; exact hc),
      getD_map_of_lt _ _ _ _ [] hr]

/-- C5, witness: the padding law applied to the two-record batch
`[[[1,2]], [[3]]]` at field `0`. -/
theorem c5_witness :
    0 < zipLen [[[1, 2]], [[3]]] ∧
    (((transformBatch [[[1, 2]], [[3]]]).getD 0 []).length =
        ([[[1, 2]], [[3]]] : List (List (List Int))).length ∧
      (∀ r, r < ([[[1, 2]], [[3]]] : List (List (List Int))).length →
        (((transformBatch [[[1, 2]], [[3]]]).getD 0 []).getD r []).length =
          listMax (([[[1, 2]], [[3]]] : List (List (List Int))).map
            (fun q => (q.getD 0 []).length))) ∧
      (∀ r, r < ([[[1, 2]], [[3]]] : List (List (List Int))).length →
        ∀ c, c < listMax (([[[1, 2]], [[3]]] : List (List (List Int))).map
            (fun q => (q.getD 0 []).length)) →
          ((((transformBatch [[[1, 2]], [[3]]]).getD 0 []).getD r []).getD c 0) =
            if c < ((([[[1, 2]], [[3]]] : List (List (List Int))).getD r []).getD 0 []).length
            then ((([[[1, 2]], [[3]]] : List (List (List Int))).getD r []).getD 0 []).getD c 0
            else -1)) :=
  ⟨by decide, c5_padding_law [[[1, 2]], [[3]]] 0 (by decide)⟩

/-! ## Claim C9 -/

/-- C9, counterexample: a batch whose single record has field sequences of
lengths `2` and `1` produces per-field matrices of different widths — the
source pads each field to its own maximum, not to a batch-wide maximum. -/
theorem c9_counterexample :
    matWidth ((transformBatch [[[1, 2], [3]]]).getD 0 []) = 2 ∧
    matWidth ((transformBatch [[[1, 2], [3]]]).getD 1 []) = 1 ∧
    matWidth ((transformBatch [[[1, 2], [3]]]).getD 0 []) ≠
      matWidth ((transformBatch [[[1, 2], [3]]]).getD 1 []) := by
  decide

/-- C9 (amended): every per-field matrix of a constructed `Batch` has the
same row count (the batch size), but its column count is that field's own
maximum sequence length; column extents agree across fields only when
those per-field maxima coincide. -/
theorem c9_batch_extents (batch : List (List (List Int))) (f : Nat)
    (hf : f < zipLen batch) :
    ((transformBatch batch).getD f []).length = batch.length ∧
    (∀ row ∈ (transformBatch batch).getD f [],
      row.length = listMax (batch.map (fun q => (q.getD f []).length))) := by
  have ht := transformBatch_getD batch f hf
  constructor
  · rw [ht, padSequence_length, List.length_map]
  · intro row hrow
    rw [ht] at hrow
    rw [padSequence_mem_length _ _ hrow, map_length_comp]

/-- C9, witness: the extents theorem applied to a two-record, two-field
batch at field `1`. -/
theorem c9_witness :
    1 < zipLen [[[1, 2], [3]], [[4, 5], [6]]] ∧
    (((transformBatch [[[1, 2], [3]], [[4, 5], [6]]]).getD 1 []).length =
        ([[[1, 2], [3]], [[4, 5], [6]]] : List (List (List Int))).length ∧
      (∀ row ∈ (transformBatch [[[1, 2], [3]], [[4, 5], [6]]]).getD 1 [],
        row.length = listMax (([[[1, 2], [3]], [[4, 5], [6]]] : List (List (List Int))).map
          (fun q => (q.getD 1 []).length)))) :=
  ⟨by decide, c9_batch_extents [[[1, 2], [3]], [[4, 5], [6]]] 1 (by decide)⟩

/-! ## Claim C6 -/

/-- C6, counterexample: in a `Batch` whose field `"b"` has padded width
`2` while field `0` has width `1` (`seqLen = 1`), `Batch.get("b")`
returns `1` window instead of `floor(maxLen_b / seqLen) = 2` — the window
count comes from `self.data[0].size(1)` for every requested field. -/
theorem c6_counterexample :
    ((exB6.get ["b"]).headD []).length = 1 ∧
    matWidth (fieldMat exB6 "b") / exB6.seqLen = 2 ∧
    ((exB6.get ["b"]).headD []).length ≠ matWidth (fieldMat exB6 "b") / exB6.seqLen := by
  decide

/-- C6 (amended): `Batch.get` computes the window count
`floor(W0 / seqLen)` from field `0`'s padded width `W0` for every
requested field; when all per-field matrices share the same width `W`
(the case the claim envisages), every requested field yields exactly
`floor(W / seqLen)` windows, window `k` of every field is the column
slice `[k*seqLen, (k+1)*seqLen)` of that field's matrix (so windows are
aligned across fields), and every window row has width exactly `seqLen`. -/
theorem c6_windowing (B : BatchS) (names : List String) (W : Nat)
    (hW : ∀ m ∈ B.data, ∀ row ∈ m, row.length = W)
    (hne : B.data ≠ []) (hrow : B.data.headD [] ≠ [])
    (hs : 0 < B.seqLen) :
    B.get names = names.map (fun f =>
      (List.range (W / B.seqLen)).map (fun k =>
        sliceCols (fieldMat B f) (k * B.seqLen) ((k + 1) * B.seqLen))) ∧
    (∀ wins ∈ B.get names, wins.length = W / B.seqLen) ∧
    (∀ f ∈ names, ∀ k, k < W / B.seqLen →
      ∀ row ∈ sliceCols (fieldMat B f) (k * B.seqLen) ((k + 1) * B.seqLen),
        row.length = B.seqLen) := by
  have hL : matWidth (B.data.headD []) = W := by
    have hhead : B.data.headD [] ∈ B.data := by
      cases h : B.data with
      | nil => exact absurd h hne
      | cons x xs => simp [h]
    have hr2 : (B.data.headD []).headD [] ∈ B.data.headD [] := by
      cases h : B.data.headD [] with
      | nil => exact absurd h hrow
      | cons x xs => simp
    exact hW _ hhead _ hr2
  have hmain : B.get names = names.map (fun f =>
      (List.range (W / B.seqLen)).map (fun k =>
        sliceCols (fieldMat B f) (k * B.seqLen) ((k + 1) * B.seqLen))) := by
    simp only [BatchS.get]
    rw [hL]
  refine ⟨hmain, ?_, ?_⟩
  · intro wins hwins
    rw [hmain] at hwins
    rcases List.mem_map.mp hwins with ⟨f, _, rfl⟩
    rw [List.length_map, List.length_range]
  · intro f _ k hk row hrow2
    rcases List.mem_map.mp hrow2 with ⟨orig, horig, rfl⟩
    have horigW : orig.length = W := by
      by_cases hidx : B.fields.indexOf f < B.data.length
      · exact hW _ (getD_mem hidx) _ horig
      · exfalso
        unfold fieldMat at horig
        rw [List.getD_eq_default _ _ (not_lt.mp hidx)] at horig
        cases horig
    have hks : (k + 1) * B.seqLen ≤ W := by
      have h1 : k + 1 ≤ W / B.seqLen := hk
      exact (Nat.le_div_iff_mul_le hs).mp h1
    have hexp : (k + 1) * B.seqLen = k * B.seqLen + B.seqLen := by ring
    rw [List.length_take, List.length_drop, horigW]
    omega

/-- C6, witness: the windowing theorem applied to a two-field `Batch` of
common width `2` with `seqLen = 1`. -/
theorem c6_witness :
    ((∀ m ∈ exW6.data, ∀ row ∈ m, row.length = 2) ∧ exW6.data ≠ [] ∧
      exW6.data.headD [] ≠ [] ∧ 0 < exW6.seqLen) ∧
    (exW6.get ["a", "b"] = (["a", "b"] : List String).map (fun f =>
        (List.range (2 / exW6.seqLen)).map (fun k =>
          sliceCols (fieldMat exW6 f) (k * exW6.seqLen) ((k + 1) * exW6.seqLen))) ∧
      (∀ wins ∈ exW6.get ["a", "b"], wins.length = 2 / exW6.seqLen) ∧
      (∀ f ∈ (["a", "b"] : List String), ∀ k, k < 2 / exW6.seqLen →
        ∀ row ∈ sliceCols (fieldMat exW6 f) (k * exW6.seqLen) ((k + 1) * exW6.seqLen),
          row.length = exW6.seqLen)) :=
  ⟨⟨by decide, by decide, by decide, by decide⟩,
    c6_windowing exW6 ["a", "b"] 2 (by decide) (by decide) (by decide) (by decide)⟩

/-! ## Parsing lemmas (`Transform.__getitem__`) -/

theorem exMapM_ok_of_all {α β : Type} (f : α → Except DErr β) (g : α → β) :
    ∀ xs : List α, (∀ x ∈ xs, f x = .ok (g x)) → exMapM f xs = .ok (xs.map g) := by
  intro xs
  induction xs with
  | nil => intro _; rfl
  | cons x xs ih =>
    intro h
    have hx := h x (by simp)
    have hxs := ih (fun y hy => h y (by simp [hy]))
    simp only [exMapM, hx, hxs, List.map_cons]

theorem exMapM_ok_or_error {α β : Type} (f : α → Except DErr β) (E : DErr) :
    ∀ xs : List α, (∀ x ∈ xs, f x = .error E ∨ ∃ y, f x = .ok y) →
      exMapM f xs = .error E ∨ ∃ ys, exMapM f xs = .ok ys := by
  intro xs
  induction xs with
  | nil => intro _; exact Or.inr ⟨[], rfl⟩
  | cons x xs ih =>
    intro h
    rcases h x (by simp) with hx | ⟨y, hy⟩
    · left
      simp only [exMapM, hx]
    · rcases ih (fun z hz => h z (by simp [hz])) with hxs | ⟨ys, hys⟩
      · left
        simp only [exMapM, hy, hxs]
      · right
        exact ⟨y :: ys, by simp only [exMapM, hy, hys]⟩

theorem exMapM_error_iff {α β : Type} (f : α → Except DErr β) (E : DErr) :
    ∀ xs : List α, (∀ x ∈ xs, f x = .error E ∨ ∃ y, f x = .ok y) →
      (exMapM f xs = .error E ↔ ∃ x ∈ xs, f x = .error E) := by
  intro xs
  induction xs with
  | nil =>
    intro _
    constructor
    · intro hc
      exact absurd hc (by simp [exMapM])
    · rintro ⟨x, hx, _⟩
      cases hx
  | cons x xs ih =>
    intro h
    have hrest : ∀ z ∈ xs, f z = .error E ∨ ∃ y, f z = .ok y :=
      fun z hz => h z (by simp [hz])
    rcases h x (by simp) with hx | ⟨y, hy⟩
    · constructor
      · intro _
        exact ⟨x, by simp, hx⟩
      · intro _
        simp only [exMapM, hx]
    · have hih := ih hrest
      constructor
      · intro hc
        simp only [exMapM, hy] at hc
        rcases exMapM_ok_or_error f E xs hrest with hxs | ⟨ys, hys⟩
        · rcases hih.mp hxs with ⟨z, hz, hfz⟩
          exact ⟨z, by simp [hz], hfz⟩
        · rw [hys] at hc
          exact absurd hc (by simp)
      · rintro ⟨z, hz, hfz⟩
        rcases List.mem_cons.mp hz with rfl | hz2
        · rw [hfz] at hy
          exact absurd hy (by simp)
        · have hxs : exMapM f xs = .error E := hih.mpr ⟨z, hz2, hfz⟩
          simp only [exMapM, hy, hxs]

theorem parseTok_cases (t : String) :
    parseTok t = .error .parseError ∨ ∃ n, parseTok t = .ok n := by
  unfold parseTok
  cases pyInt t <;> simp

theorem parseTok_error_iff (t : String) :
    parseTok t = .error .parseError ↔ pyInt t = none := by
  unfold parseTok
  cases h : pyInt t <;> simp

theorem parseLine_cases (l : String) :
    parseLine l = .error .parseError ∨ ∃ ys, parseLine l = .ok ys :=
  exMapM_ok_or_error _ _ _ (fun t _ => parseTok_cases t)

theorem parseLine_error_iff (l : String) :
    parseLine l = .error .parseError ↔
      ∃ t ∈ (pyStripWS l).splitOn ",", pyInt t = none := by
  unfold parseLine
  rw [exMapM_error_iff _ _ _ (fun t _ => parseTok_cases t)]
  exact exists_congr fun t => and_congr_right fun _ => parseTok_error_iff t

theorem parseOne_eq (L : Lines) (i : Int) (h1 : i < L.length) (hg : L.group ≠ 1) :
    parseOne L i = exMapM parseLine ((recordLines L i).drop 1) := by
  unfold parseOne linesGetInt fetchAt
  rw [if_pos h1, if_neg hg]

/-! ## Claim C7 -/

/-- C7 (confirmed): for a valid record index, `parseOne` drops the marker
line and parses each remaining line by splitting on commas and converting
tokens with `int(·)`; it fails with `ParseError` if and only if some token
of some non-marker line is not an integer, and otherwise returns the
parsed integer sequences in line order. -/
theorem c7_parse_contract (L : Lines) (i : Int) (h0 : 0 ≤ i) (h1 : i < L.length)
    (hg : L.group ≠ 1) :
    (parseOne L i = .error .parseError ↔
      ∃ l ∈ (recordLines L i).drop 1, ∃ t ∈ (pyStripWS l).splitOn ",", pyInt t = none) ∧
    ((∀ l ∈ (recordLines L i).drop 1, ∀ t ∈ (pyStripWS l).splitOn ",", (pyInt t).isSome) →
      parseOne L i = .ok (((recordLines L i).drop 1).map
        (fun l => ((pyStripWS l).splitOn ",").map (fun t => (pyInt t).getD 0)))) := by
  have hpe := parseOne_eq L i h1 hg
  constructor
  · rw [hpe, exMapM_error_iff _ _ _ (fun l _ => parseLine_cases l)]
    exact exists_congr fun l => and_congr_right fun _ => parseLine_error_iff l
  · intro hall
    rw [hpe]
    apply exMapM_ok_of_all
    intro l hl
    apply exMapM_ok_of_all
    intro t ht
    have hsome := hall l hl t ht
    unfold parseTok
    cases h : pyInt t with
    | none =>
      rw [h] at hsome
      exact absurd hsome (by simp)
    | some n => simp [h]

/-- C7, witness: the parse contract applied to a two-record grouped file
at index `0`. -/
theorem c7_witness :
    ((0 : Int) ≤ 0 ∧ (0 : Int) < exL7.length ∧ exL7.group ≠ 1) ∧
    ((parseOne exL7 0 = .error .parseError ↔
       ∃ l ∈ (recordLines exL7 0).drop 1,
         ∃ t ∈ (pyStripWS l).splitOn ",", pyInt t = none) ∧
     ((∀ l ∈ (recordLines exL7 0).drop 1,
         ∀ t ∈ (pyStripWS l).splitOn ",", (pyInt t).isSome) →
       parseOne exL7 0 = .ok (((recordLines exL7 0).drop 1).map
         (fun l => ((pyStripWS l).splitOn ",").map (fun t => (pyInt t).getD 0))))) :=
  ⟨⟨le_refl 0, by decide, by decide⟩,
    c7_parse_contract exL7 0 (le_refl 0) (by decide) (by decide)⟩

/-! ## Iterator lemmas: producer loop and consumer -/

theorem map_range_shift {β : Type} (h : Nat → β) (m : Nat) :
    (List.range (m + 1)).map h = h 0 :: (List.range m).map (fun k => h (1 + k)) := by
  rw [List.range_succ_eq_map, List.map_cons, List.map_map]
  congr 1
  apply List.map_congr_left
  intro k _
  simp only [Function.comp]
  congr 1
  omega

theorem loopNBAux_all_ok {α : Type} (data : Nat → Except DErr α) (g : Nat → α) :
    ∀ (fuel pos : Nat), (∀ i, pos ≤ i → i < pos + fuel → data i = .ok (g i)) →
      loopNBAux data fuel pos =
        ((List.range fuel).map (fun k => Except.ok (g (pos + k))), false) := by
  intro fuel
  induction fuel with
  | zero => intro pos _; rfl
  | succ fuel ih =>
    intro pos h
    have hp : data pos = .ok (g pos) := h pos (le_refl _) (by omega)
    have hrest := ih (pos + 1) (fun i h1 h2 => h i (by omega) (by omega))
    simp only [loopNBAux, hp, hrest, Prod.mk.injEq]
    refine ⟨?_, trivial⟩
    rw [map_range_shift (fun k => Except.ok (g (pos + k))) fuel]
    congr 1
    apply List.map_congr_left
    intro k _
    exact congrArg (fun n => Except.ok (g n)) (by omega)

theorem loopNBAux_until_error {α : Type} (data : Nat → Except DErr α) (g : Nat → α)
    (e : DErr) (j : Nat) :
    ∀ (fuel pos : Nat), pos ≤ j → j < pos + fuel → data j = .error e →
      (∀ i, pos ≤ i → i < j → data i = .ok (g i)) →
      loopNBAux data fuel pos =
        ((List.range (j - pos)).map (fun k => Except.ok (g (pos + k))) ++ [.error e],
          true) := by
  intro fuel
  induction fuel with
  | zero => intro pos h1 h2 _ _; omega
  | succ fuel ih =>
    intro pos h1 h2 he hok
    rcases Nat.eq_or_lt_of_le h1 with rfl | hlt
    · simp only [loopNBAux, he]
      simp [Nat.sub_self]
    · have hp : data pos = .ok (g pos) := hok pos (le_refl _) hlt
      have hrest := ih (pos + 1) hlt (by omega) he (fun i hi1 hi2 => hok i (by omega) hi2)
      simp only [loopNBAux, hp, hrest, Prod.mk.injEq]
      refine ⟨?_, trivial⟩
      have hj : j - pos = (j - (pos + 1)) + 1 := by omega
      rw [hj, map_range_shift (fun k => Except.ok (g (pos + k))) (j - (pos + 1)),
        List.cons_append]
      congr 1
      congr 1
      apply List.map_congr_left
      intro k _
      exact congrArg (fun n => Except.ok (g n)) (by omega)

theorem consume_stop {α : Type} (q : List (Except DErr α)) (pos len : Nat)
    (h : len ≤ pos) : consume q pos len = ([], none) := by
  unfold consume
  rw [if_pos h]

theorem consume_step_ok {α : Type} (v : α) (q : List (Except DErr α)) (pos len : Nat)
    (h : pos < len) :
    consume (.ok v :: q) pos len =
      (v :: (consume q (pos + 1) len).1, (consume q (pos + 1) len).2) := by
  conv_lhs => rw [consume]
  rw [if_neg (not_le.mpr h)]

theorem consume_step_err {α : Type} (e : DErr) (q : List (Except DErr α)) (pos len : Nat)
    (h : pos < len) : consume (.error e :: q) pos len = ([], some e) := by
  conv_lhs => rw [consume]
  rw [if_neg (not_le.mpr h)]

theorem consume_of_oks {α : Type} (vs : List α) :
    ∀ (rest : List (Except DErr α)) (pos len : Nat), pos + vs.length = len →
      consume (vs.map Except.ok ++ rest) pos len = (vs, none) := by
  induction vs with
  | nil =>
    intro rest pos len h
    simp only [List.length_nil, Nat.add_zero] at h
    simp only [List.map_nil, List.nil_append]
    exact consume_stop rest pos len (by omega)
  | cons v vs ih =>
    intro rest pos len h
    simp only [List.map_cons, List.cons_append]
    rw [consume_step_ok v _ pos len (by simp at h; omega),
      ih rest (pos + 1) len (by simp at h; omega)]

theorem consume_oks_then_err {α : Type} (vs : List α) :
    ∀ (e : DErr) (rest : List (Except DErr α)) (pos len : Nat), pos + vs.length < len →
      consume (vs.map Except.ok ++ (.error e :: rest)) pos len = (vs, some e) := by
  induction vs with
  | nil =>
    intro e rest pos len h
    simp only [List.length_nil, Nat.add_zero] at h
    simp only [List.map_nil, List.nil_append]
    exact consume_step_err e rest pos len (by omega)
  | cons v vs ih =>
    intro e rest pos len h
    simp only [List.map_cons, List.cons_append]
    rw [consume_step_ok v _ pos len (by simp at h; omega),
      ih e rest (pos + 1) len (by simp at h; omega)]

/-! ## Claim C1 -/

/-- C1, counterexample: in non-prefetch mode a failing production step
raises the failure synchronously to the caller (`produce`'s
`daemon=False` branch re-raises), so nothing — in particular not the
failure object — is enqueued, contradicting the claim that the failure is
carried through the queue in both modes. -/
theorem c1_counterexample :
    nextNP cdataC1 0 1 = (.error .parseError, ([] : List (Except DErr Nat))) ∧
    ([] : List (Except DErr Nat)) ≠ [.error .parseError] := by
  constructor
  · rfl
  · simp

/-- C1 (amended): in prefetch (daemon) mode, the first failure at index
`j` is enqueued in place of a value, the producer stops (the failure is
the final queue item), and the consumer re-raises it on dequeue after
delivering the preceding values; in non-prefetch mode the failure is
raised synchronously during the production step and never enters the
queue. -/
theorem c1_error_channel {α : Type} (data : Nat → Except DErr α) (g : Nat → α)
    (index : List Nat) (fullIndex : Option (List Nat)) (pos j len : Nat) (e : DErr)
    (hpj : pos ≤ j) (hjl : j < len) (he : data j = .error e)
    (hok : ∀ i, pos ≤ i → i < j → data i = .ok (g i)) :
    produceNB data index fullIndex pos len =
      ((List.range (j - pos)).map (fun k => Except.ok (g (pos + k)))) ++ [.error e] ∧
    consume (produceNB data index fullIndex pos len) pos len =
      ((List.range (j - pos)).map (fun k => g (pos + k)), some e) ∧
    nextNP data j len = (.error e, []) := by
  have hloop := loopNBAux_until_error data g e j (len - pos) pos hpj (by omega) he hok
  have hprod : produceNB data index fullIndex pos len =
      ((List.range (j - pos)).map (fun k => Except.ok (g (pos + k)))) ++ [.error e] := by
    unfold produceNB
    rw [hloop]
    simp
  refine ⟨hprod, ?_, ?_⟩
  · rw [hprod]
    have h1 : (List.range (j - pos)).map (fun k => Except.ok (g (pos + k))) =
        ((List.range (j - pos)).map (fun k => g (pos + k))).map
          (Except.ok : α → Except DErr α) := by
      rw [List.map_map]
      rfl
    rw [h1]
    exact consume_oks_then_err _ e [] pos len
      (by simp only [List.length_map, List.length_range]; omega)
  · unfold nextNP
    rw [if_pos hjl, he]

/-- C1, witness: the error-channel theorem applied to a source failing at
index `1` of `3`. -/
theorem c1_witness :
    (0 ≤ 1 ∧ 1 < 3 ∧ wdataC1 1 = .error .parseError ∧
      (∀ i, 0 ≤ i → i < 1 → wdataC1 i = .ok ((fun i => i) i))) ∧
    (produceNB wdataC1 [] none 0 3 =
        ((List.range (1 - 0)).map (fun k => Except.ok ((fun i => i) (0 + k)))) ++
          [.error .parseError] ∧
      consume (produceNB wdataC1 [] none 0 3) 0 3 =
        ((List.range (1 - 0)).map (fun k => (fun i => i) (0 + k)), some .parseError) ∧
      nextNP wdataC1 1 3 = (.error .parseError, [])) :=
  ⟨⟨Nat.zero_le 1, by omega, by decide,
      fun i _ h2 => by
        have hi : i = 0 := by omega
        subst hi
        decide⟩,
    c1_error_channel wdataC1 (fun i => i) [] none 0 1 3 .parseError (Nat.zero_le 1)
      (by omega) (by decide)
      (fun i _ h2 => by
        have hi : i = 0 := by omega
        subst hi
        decide)⟩

/-! ## Claim C10 -/

/-- C10 (confirmed): with `batchSize` unset, the no-batch production path
indexes the data source directly with the running position, so a complete
prefetch run delivers `data[0], ..., data[len-1]` in source order for
every value of the batch-order permutation and the element permutation
(neither is consulted for any delivered value), and each non-prefetch
step at position `pos` enqueues and returns `data[pos]`. -/
theorem c10_nobatch_source_order {α : Type} (data : Nat → Except DErr α) (g : Nat → α)
    (index : List Nat) (fullIndex : Option (List Nat)) (len : Nat)
    (hdata : ∀ i, i < len → data i = .ok (g i)) :
    consume (produceNB data index fullIndex 0 len) 0 len = ((List.range len).map g, none) ∧
    (∀ pos, pos < len → nextNP data pos len = (.ok (some (g pos)), [.ok (g pos)])) := by
  constructor
  · have hloop := loopNBAux_all_ok data g len 0 (fun i _ h2 => hdata i (by omega))
    have h1 : (List.range len).map (fun k => Except.ok (g (0 + k))) =
        ((List.range len).map g).map (Except.ok : α → Except DErr α) := by
      rw [List.map_map]
      apply List.map_congr_left
      intro k _
      simp
    have hprod : produceNB data index fullIndex 0 len =
        ((List.range len).map g).map (Except.ok : α → Except DErr α) ++
          (if 0 < len then [Except.error DErr.typeError] else []) := by
      unfold produceNB
      rw [Nat.sub_zero, hloop, ← h1]
      simp
    rw [hprod]
    exact consume_of_oks ((List.range len).map g) _ 0 len (by simp)
  · intro pos h
    unfold nextNP
    rw [if_pos h, hdata pos h]

/-- C10, witness: a three-element all-successful source with nontrivial
(ignored) permutations. -/
theorem c10_witness :
    (∀ i, i < 3 → (fun i => (Except.ok i : Except DErr Nat)) i = .ok ((fun i => i) i)) ∧
    (consume (produceNB (fun i => (Except.ok i : Except DErr Nat)) [2, 0, 1]
          (some [1, 2, 0]) 0 3) 0 3 = ((List.range 3).map (fun i => i), none) ∧
      (∀ pos, pos < 3 → nextNP (fun i => (Except.ok i : Except DErr Nat)) pos 3 =
        (.ok (some ((fun i => i) pos)), [.ok ((fun i => i) pos)]))) :=
  ⟨fun i _ => rfl,
    c10_nobatch_source_order (fun i => (Except.ok i : Except DErr Nat)) (fun i => i)
      [2, 0, 1] (some [1, 2, 0]) 3 (fun i _ => rfl)⟩

/-! ## Claim C4 -/

/-- C4, counterexample: in ordering mode none (the `else` branch of
`produce`), with batch size `2` and the transform `reverse` present, the
enqueued batch is the raw fetched slice `[0, 1]`, not the transformed
slice `[1, 0]` — the `else` branch never applies `self.transform`. -/
theorem c4_counterexample :
    produceBatchElse rngData [] (some List.reverse) [0] 2 0 1 = [QItemB.bare [0, 1]] ∧
    (QItemB.bare (List.reverse [0, 1]) : QItemB (List Nat)) ≠ QItemB.bare [0, 1] := by
  constructor
  · rfl
  · decide

/-- C4 (amended): the transform is applied to the raw data batch and to
each label batch only on the full-shuffle path; the none/batch-shuffle
(`else`) path never consults the transform, enqueueing the raw range
fetches unchanged. -/
theorem c4_transform_application {α : Type} (elems : Nat → α) (labels : List (Nat → α))
    (t : List α → List α) (fullIndex : List Nat) (dataRange : Nat → Nat → List α)
    (labelRanges : List (Nat → Nat → List α)) (index : List Nat) (bs pos nb : Nat) :
    produceFullL elems labels (some t) fullIndex bs pos nb =
      (produceFullL elems labels none fullIndex bs pos nb).map (mapQItem t) ∧
    produceBatchElse dataRange labelRanges (some t) index bs pos nb =
      produceBatchElse dataRange labelRanges none index bs pos nb := by
  constructor
  · unfold produceFullL
    rw [List.map_map]
    apply List.map_congr_left
    intro i _
    cases labels with
    | nil => simp [mapQItem, applyT, Function.comp]
    | cons lab rest => simp [mapQItem, applyT, Function.comp, List.map_map]
  · rfl

/-! ## Claim C8 -/

theorem ceilDiv_succ (m bs : Nat) (hbs : 0 < bs) (hm : 0 < m) :
    ceilDiv m bs = ceilDiv (m - bs) bs + 1 := by
  unfold ceilDiv
  rcases Nat.lt_or_ge m bs with hlt | hge
  · have h1 : m + bs - 1 = (m - 1) + bs := by omega
    have h2 : m - bs = 0 := by omega
    rw [h1, Nat.add_div_right _ hbs, h2]
    have h3 : (m - 1) / bs = 0 := Nat.div_eq_of_lt (by omega)
    have h4 : (0 + bs - 1) / bs = 0 := Nat.div_eq_of_lt (by omega)
    omega
  · have h1 : m + bs - 1 = ((m - bs) + bs - 1) + bs := by omega
    rw [h1, Nat.add_div_right _ hbs]

theorem flatten_chunks {β : Type} (bs : Nat) (hbs : 0 < bs) :
    ∀ (nb : Nat) (l : List β), nb = ceilDiv l.length bs →
      ((List.range' 0 nb).map (fun i => (l.drop (i * bs)).take bs)).flatten = l := by
  intro nb
  induction nb with
  | zero =>
    intro l h
    have hl : l.length = 0 := by
      unfold ceilDiv at h
      rcases Nat.eq_zero_or_pos l.length with h0 | hpos
      · exact h0
      · exfalso
        have h2 : 1 ≤ (l.length + bs - 1) / bs :=
          (Nat.le_div_iff_mul_le hbs).mpr (by omega)
        omega
    rw [List.eq_nil_of_length_eq_zero hl]
    simp
  | succ nb ih =>
    intro l h
    have hl0 : 0 < l.length := by
      rcases Nat.eq_zero_or_pos l.length with h0 | hpos
      · exfalso
        rw [h0] at h
        unfold ceilDiv at h
        rw [Nat.div_eq_of_lt (by omega)] at h
        omega
      · exact hpos
    rw [List.range'_succ, List.map_cons, List.flatten_cons]
    have h1 : (l.drop (0 * bs)).take bs = l.take bs := by simp
    have h2 : (List.range' 1 nb).map (fun i => (l.drop (i * bs)).take bs) =
        (List.range' 0 nb).map (fun i => ((l.drop bs).drop (i * bs)).take bs) := by
      rw [List.range'_eq_map_range, List.range'_eq_map_range, List.map_map, List.map_map]
      apply List.map_congr_left
      intro k _
      simp only [Function.comp]
      rw [List.drop_drop]
      congr 2
      ring
    have h3 : nb = ceilDiv (l.drop bs).length bs := by
      rw [List.length_drop]
      rw [ceilDiv_succ l.length bs hbs hl0] at h
      omega
    rw [h1, h2, ih (l.drop bs) h3, List.take_append_drop]

/-- C8 (confirmed): in full-shuffle mode with any positive batch size and
any drawn element permutation, an error-free complete run from position
`0` with no transform produces `ceil(n/bs)` batches whose concatenation
is a permutation of the source elements (each element delivered exactly
once), every non-final batch having exactly `bs` elements; the consumer
dequeues exactly these batches in order. -/
theorem c8_full_shuffle_coverage {α : Type} (elems : Nat → α) (fullIndex : List Nat)
    (n bs : Nat) (hbs : 0 < bs) (hperm : fullIndex.Perm (List.range n)) :
    (produceFull elems none fullIndex bs 0 (ceilDiv n bs)).length = ceilDiv n bs ∧
    (produceFull elems none fullIndex bs 0 (ceilDiv n bs)).flatten.Perm
      ((List.range n).map elems) ∧
    (∀ k, k + 1 < ceilDiv n bs →
      ((produceFull elems none fullIndex bs 0 (ceilDiv n bs)).getD k []).length = bs) ∧
    consume ((produceFull elems none fullIndex bs 0 (ceilDiv n bs)).map Except.ok) 0
        (ceilDiv n bs) =
      (produceFull elems none fullIndex bs 0 (ceilDiv n bs), none) := by
  have hlen : fullIndex.length = n := hperm.length_eq.trans (List.length_range n)
  have hform : produceFull elems none fullIndex bs 0 (ceilDiv n bs) =
      (List.range' 0 (ceilDiv n bs)).map
        (fun i => ((fullIndex.drop (i * bs)).take bs).map elems) := by
    simp only [produceFull, applyT, Nat.sub_zero]
  have hlength : (produceFull elems none fullIndex bs 0 (ceilDiv n bs)).length =
      ceilDiv n bs := by
    rw [hform, List.length_map, List.length_range']
  refine ⟨hlength, ?_, ?_, ?_⟩
  · rw [hform]
    have hmm : (List.range' 0 (ceilDiv n bs)).map
          (fun i => ((fullIndex.drop (i * bs)).take bs).map elems) =
        ((List.range' 0 (ceilDiv n bs)).map
          (fun i => (fullIndex.drop (i * bs)).take bs)).map (List.map elems) := by
      rw [List.map_map]
      rfl
    rw [hmm, ← List.map_flatten, flatten_chunks bs hbs (ceilDiv n bs) fullIndex
      (by rw [hlen])]
    exact hperm.map elems
  · intro k hk
    have hklt : k < ceilDiv n bs := by omega
    have hkl2 : k < ((List.range' 0 (ceilDiv n bs)).map
        (fun i => ((fullIndex.drop (i * bs)).take bs).map elems)).length := by
      rw [List.length_map, List.length_range']
      exact hklt
    rw [hform, List.getD_eq_getElem _ _ hkl2, List.getElem_map, List.getElem_range']
    rw [List.length_map, List.length_take, List.length_drop, hlen]
    unfold ceilDiv at hk
    have hb2 : (k + 2) * bs ≤ n + bs - 1 :=
      (Nat.le_div_iff_mul_le hbs).mp (by omega)
    have hexp : (k + 2) * bs = k * bs + 2 * bs := by ring
    have hone : (0 + 1 * k) * bs = k * bs := by ring
    rw [hone]
    omega
  · have hc := consume_of_oks (produceFull elems none fullIndex bs 0 (ceilDiv n bs))
      ([] : List (Except DErr (List α))) 0 (ceilDiv n bs) (by rw [hlength]; omega)
    rwa [List.append_nil] at hc

/-- C8, witness: the coverage theorem applied to the permutation
`[2, 0, 1]` of three elements with batch size `2`. -/
theorem c8_witness :
    (0 < 2 ∧ ([2, 0, 1] : List Nat).Perm (List.range 3)) ∧
    ((produceFull (fun i => i) none [2, 0, 1] 2 0 (ceilDiv 3 2)).length = ceilDiv 3 2 ∧
      (produceFull (fun i => i) none [2, 0, 1] 2 0 (ceilDiv 3 2)).flatten.Perm
        ((List.range 3).map (fun i => i)) ∧
      (∀ k, k + 1 < ceilDiv 3 2 →
        ((produceFull (fun i => i) none [2, 0, 1] 2 0 (ceilDiv 3 2)).getD k []).length
          = 2) ∧
      consume ((produceFull (fun i => i) none [2, 0, 1] 2 0 (ceilDiv 3 2)).map
          Except.ok) 0 (ceilDiv 3 2) =
        (produceFull (fun i => i) none [2, 0, 1] 2 0 (ceilDiv 3 2), none)) :=
  ⟨⟨by decide, by decide⟩,
    c8_full_shuffle_coverage (fun i => i) [2, 0, 1] 3 2 (by decide) (by decide)⟩

end DTransData
